import Mathlib

/-!
Verification of the treelock library (src/treelock.py) against its
natural-language specification.

The development shallowly embeds the code:

* the five `asyncio.Future` subclasses and their `is_compatible` static
  methods become `Mode` and the `*_is_compatible` functions (a holds
  dictionary `holds[Mode] -> count` becomes `Mode → Nat`, Python truthiness
  `not holds[X]` becomes `holds X = 0`);
* `TreeLockContextManager.__aenter__`'s derivation of the sorted
  per-node lock list (`with_locks`, the four raw listings,
  `heapq.merge(..., key=lambda lock: lock[0], reverse=True)` and the
  coalescing loop over `sorted_locks` with its `Last` sentinel) becomes
  `with_locks`, `all_locks`, `merge`, `group_loop` and `acquire_seq`;
* the acquisition loop with its `try/except` unwind and `__aexit__`'s
  `while self._acquired: pop()` loop become `aenter_loop`, `aexit` and
  `release_loop`, over a per-node held-mode-count state.

A `FifoLock` is identified by the node that keys it in the weak-value
registry (`self._locks.setdefault(node, default=FifoLock())` returns the
same lock object for the same node for the duration of a request, and
distinct lock objects for distinct nodes), so `previous == lock` in the
source's coalescing loop is node equality here.
-/

set_option maxHeartbeats 1000000

namespace TreeLockModel

/-- The five lock modes of treelock: the four `asyncio.Future` subclasses
`ReadAncestor`, `Read`, `WriteAncestor`, `Write` used in raw listings plus
the composite `ReadAndWriteAncestor`. -/
inductive Mode where
  | ReadAncestor
  | Read
  | WriteAncestor
  | Write
  | ReadAndWriteAncestor
deriving DecidableEq

/-- `ReadAncestor.is_compatible`: `not holds[Write]`. -/
def ReadAncestor_is_compatible (holds : Mode → Nat) : Bool :=
  decide (holds .Write = 0)

/-- `Read.is_compatible`:
`not holds[WriteAncestor] and not holds[Write] and not holds[ReadAndWriteAncestor]`. -/
def Read_is_compatible (holds : Mode → Nat) : Bool :=
  decide (holds .WriteAncestor = 0) && decide (holds .Write = 0) &&
    decide (holds .ReadAndWriteAncestor = 0)

/-- `WriteAncestor.is_compatible`:
`not holds[Read] and not holds[Write] and not holds[ReadAndWriteAncestor]`. -/
def WriteAncestor_is_compatible (holds : Mode → Nat) : Bool :=
  decide (holds .Read = 0) && decide (holds .Write = 0) &&
    decide (holds .ReadAndWriteAncestor = 0)

/-- `Write.is_compatible`: `not holds[ReadAncestor] and not holds[Read] and
not holds[WriteAncestor] and not holds[Write] and not holds[ReadAndWriteAncestor]`. -/
def Write_is_compatible (holds : Mode → Nat) : Bool :=
  decide (holds .ReadAncestor = 0) && decide (holds .Read = 0) &&
    decide (holds .WriteAncestor = 0) && decide (holds .Write = 0) &&
    decide (holds .ReadAndWriteAncestor = 0)

/-- `ReadAndWriteAncestor.is_compatible`:
`Read.is_compatible(holds) and WriteAncestor.is_compatible(holds)`. -/
def ReadAndWriteAncestor_is_compatible (holds : Mode → Nat) : Bool :=
  Read_is_compatible holds && WriteAncestor_is_compatible holds

/-- Dispatch of `is_compatible` on the requested mode's class. -/
def is_compatible : Mode → (Mode → Nat) → Bool
  | .ReadAncestor => ReadAncestor_is_compatible
  | .Read => Read_is_compatible
  | .WriteAncestor => WriteAncestor_is_compatible
  | .Write => Write_is_compatible
  | .ReadAndWriteAncestor => ReadAndWriteAncestor_is_compatible

/-- Replacing one held `ReadAndWriteAncestor` by one held `Read` plus one
held `WriteAncestor` in a holds multiset. -/
def rwaSplit (holds : Mode → Nat) : Mode → Nat
  | .ReadAndWriteAncestor => holds .ReadAndWriteAncestor - 1
  | .Read => holds .Read + 1
  | .WriteAncestor => holds .WriteAncestor + 1
  | m => holds m

/-- C1: the per-mode compatibility predicates realize the §3 matrix
extended with `ReadAndWriteAncestor`: a requested `Write` is compatible iff
no mode at all is held; a requested `Read` iff no `WriteAncestor`, no
`Write` and no `ReadAndWriteAncestor` is held; a requested `WriteAncestor`
iff no `Read`, no `Write` and no `ReadAndWriteAncestor` is held; a
requested `ReadAncestor` iff no `Write` is held; and a requested
`ReadAndWriteAncestor` is compatible iff both `Read` and `WriteAncestor`
would be. -/
theorem C1_compat_matrix (holds : Mode → Nat) :
    (is_compatible .Write holds = true ↔
      (holds .ReadAncestor = 0 ∧ holds .Read = 0 ∧ holds .WriteAncestor = 0 ∧
        holds .Write = 0 ∧ holds .ReadAndWriteAncestor = 0)) ∧
    (is_compatible .Read holds = true ↔
      (holds .WriteAncestor = 0 ∧ holds .Write = 0 ∧ holds .ReadAndWriteAncestor = 0)) ∧
    (is_compatible .WriteAncestor holds = true ↔
      (holds .Read = 0 ∧ holds .Write = 0 ∧ holds .ReadAndWriteAncestor = 0)) ∧
    (is_compatible .ReadAncestor holds = true ↔ holds .Write = 0) ∧
    (is_compatible .ReadAndWriteAncestor holds =
      (is_compatible .Read holds && is_compatible .WriteAncestor holds)) := by
  refine ⟨?_, ?_, ?_, ?_, rfl⟩ <;>
    simp [is_compatible, Write_is_compatible, Read_is_compatible,
      WriteAncestor_is_compatible, ReadAncestor_is_compatible, and_assoc]

/-- C10: a held `ReadAndWriteAncestor` blocks exactly what one held `Read`
together with one held `WriteAncestor` would block: for every requested
mode the compatibility verdict is unchanged when one held
`ReadAndWriteAncestor` is replaced by one `Read` plus one `WriteAncestor`;
concretely a requested `Read`, `WriteAncestor`, `Write` or
`ReadAndWriteAncestor` is incompatible with such a holds multiset. -/
theorem C10_rwa_equals_read_plus_writeancestor (m : Mode) (holds : Mode → Nat)
    (h : 1 ≤ holds .ReadAndWriteAncestor) :
    is_compatible m holds = is_compatible m (rwaSplit holds) ∧
    is_compatible .Read holds = false ∧
    is_compatible .WriteAncestor holds = false ∧
    is_compatible .Write holds = false ∧
    is_compatible .ReadAndWriteAncestor holds = false := by
  have hne : holds .ReadAndWriteAncestor ≠ 0 := by omega
  refine ⟨?_, ?_, ?_, ?_, ?_⟩
  · cases m <;>
      simp [is_compatible, ReadAncestor_is_compatible, Read_is_compatible,
        WriteAncestor_is_compatible, Write_is_compatible,
        ReadAndWriteAncestor_is_compatible, rwaSplit, hne]
  all_goals
    simp [is_compatible, Read_is_compatible, WriteAncestor_is_compatible,
      Write_is_compatible, ReadAndWriteAncestor_is_compatible, hne]

/-- A concrete holds multiset holding exactly one `ReadAndWriteAncestor`. -/
def holdsOneRWA : Mode → Nat
  | .ReadAndWriteAncestor => 1
  | _ => 0

theorem C10_rwa_equals_read_plus_writeancestor_witness :
    1 ≤ holdsOneRWA .ReadAndWriteAncestor ∧
    (is_compatible .Read holdsOneRWA = is_compatible .Read (rwaSplit holdsOneRWA) ∧
      is_compatible .Read holdsOneRWA = false ∧
      is_compatible .WriteAncestor holdsOneRWA = false ∧
      is_compatible .Write holdsOneRWA = false ∧
      is_compatible .ReadAndWriteAncestor holdsOneRWA = false) :=
  ⟨by decide, C10_rwa_equals_read_plus_writeancestor .Read holdsOneRWA (by decide)⟩

section Derivation

variable {α : Type} [LinearOrder α]

/-- `with_locks(nodes, mode)`: pairs each node (standing also for its
`FifoLock` from the registry) with the given raw mode. -/
def with_locks (nodes : List α) (mode : Mode) : List (α × Mode) :=
  nodes.map (fun node => (node, mode))

/-- The four raw per-node listings built in `__aenter__`:
`write_locks + write_ancestor_locks + read_locks + read_ancestor_locks`,
each a list of per-target generators. `parents` is the node model's
ancestor chain (immediate parent up to root). -/
def all_locks (parents : α → List α) (read write : List α) :
    List (List (α × Mode)) :=
  write.map (fun node => with_locks [node] .Write)
    ++ write.map (fun node => with_locks (parents node) .WriteAncestor)
    ++ read.map (fun node => with_locks [node] .Read)
    ++ read.map (fun node => with_locks (parents node) .ReadAncestor)

/-- One step of `heapq.merge(..., key=lambda lock: lock[0], reverse=True)`:
pop, among the nonempty iterables, the head whose node is largest, the
earliest iterable winning ties (heapq orders equal keys by iterable
index). -/
def popBest : List (List (α × Mode)) →
    Option ((α × Mode) × List (List (α × Mode)))
  | [] => none
  | [] :: rest => popBest rest
  | ((e :: es) :: rest) =>
    match popBest rest with
    | none => some (e, es :: rest)
    | some (e2, rest2) =>
      if e.1 < e2.1 then some (e2, (e :: es) :: rest2) else some (e, es :: rest)

/-- Total number of pending entries across the iterables. -/
def totalLen (ls : List (List (α × Mode))) : Nat :=
  (ls.map List.length).sum

/-- Fuelled merge loop; each step removes exactly one entry, so
`totalLen` fuel runs the merge to completion. -/
def mergeRevFuel : Nat → List (List (α × Mode)) → List (α × Mode)
  | 0, _ => []
  | fuel + 1, ls =>
    match popBest ls with
    | none => []
    | some (e, ls2) => e :: mergeRevFuel fuel ls2

/-- `list(merge(*all_locks, key=lambda lock: lock[0], reverse=True))`. -/
def merge (ls : List (List (α × Mode))) : List (α × Mode) :=
  mergeRevFuel (totalLen ls) ls

/-- The `final_mode` computation of the coalescing loop: `Write` wins,
else both `WriteAncestor` and `Read` present
(`len(WriteAncestorAndReadSet.intersection(lock_modes)) == 2`) give
`ReadAndWriteAncestor`, else `WriteAncestor`, else `Read`, else
`ReadAncestor`. The Python set of modes is represented by a list queried
by membership. -/
def final_mode (lock_modes : List Mode) : Mode :=
  if Mode.Write ∈ lock_modes then .Write
  else if Mode.WriteAncestor ∈ lock_modes ∧ Mode.Read ∈ lock_modes then .ReadAndWriteAncestor
  else if Mode.WriteAncestor ∈ lock_modes then .WriteAncestor
  else if Mode.Read ∈ lock_modes then .Read
  else .ReadAncestor

/-- The coalescing `for` loop over `sorted_locks` from its second entry
on: `previous` is the node of the group being collected, `lock_modes` the
modes seen for it so far; a new node flushes the group as one
`(node, final_mode)` acquisition. The empty-list base case is the `Last`
sentinel flushing the final group. -/
def group_loop (previous : α) (lock_modes : List Mode) :
    List (α × Mode) → List (α × Mode)
  | [] => [(previous, final_mode lock_modes)]
  | (node, mode) :: rest =>
    if node = previous then group_loop previous (mode :: lock_modes) rest
    else (previous, final_mode lock_modes) :: group_loop node [mode] rest

/-- The full coalescing loop: the first entry (index 0) seeds
`previous`/`lock_modes`; an empty `sorted_locks` (only the sentinel)
acquires nothing. -/
def acquire_seq : List (α × Mode) → List (α × Mode)
  | [] => []
  | (node, mode) :: rest => group_loop node [mode] rest

/-- The ordered sequence of per-node `(node, composite mode)` acquisitions
performed by `__aenter__` for one request. -/
def tree_acquire (parents : α → List α) (read write : List α) :
    List (α × Mode) :=
  acquire_seq (merge (all_locks parents read write))

/-- The raw entries, ungrouped: the concatenation of the four listings. -/
def raw_entries (parents : α → List α) (read write : List α) :
    List (α × Mode) :=
  (all_locks parents read write).flatten

/-- All modes attached to node `n` in an entry list. -/
def modesOf (n : α) (l : List (α × Mode)) : List Mode :=
  (l.filter (fun e => decide (e.1 = n))).map Prod.snd

/-- The raw modes listed for node `n` by one request. -/
def raw_modes (parents : α → List α) (read write : List α) (n : α) :
    List Mode :=
  modesOf n (raw_entries parents read write)

/-- Strongest-mode selection as the spec words it: the lattice
`W > (R ∧ WA) > WA > R > RA` with `(R ∧ WA)` realized as the composite
`ReadAndWriteAncestor`. -/
def strongest_mode (ms : List Mode) : Mode :=
  if Mode.Write ∈ ms then .Write
  else if Mode.WriteAncestor ∈ ms ∧ Mode.Read ∈ ms then .ReadAndWriteAncestor
  else if Mode.WriteAncestor ∈ ms then .WriteAncestor
  else if Mode.Read ∈ ms then .Read
  else .ReadAncestor

/-- The merge's precondition, satisfied by path-style nodes: every
ancestor chain used by the request is listed in descending node order
(immediate parent down to root, each ancestor comparing below its
descendant). -/
def chains_sorted (parents : α → List α) (read write : List α) : Prop :=
  (∀ x ∈ write, (parents x).Pairwise (fun a b => b ≤ a)) ∧
    (∀ x ∈ read, (parents x).Pairwise (fun a b => b ≤ a))

/-- Ancestor chains are transitively closed, as in a tree: an ancestor of
an ancestor is an ancestor. -/
def ancestor_closed (parents : α → List α) : Prop :=
  ∀ a b c, b ∈ parents a → c ∈ parents b → c ∈ parents a

instance (parents : α → List α) (read write : List α) :
    Decidable (chains_sorted parents read write) := by
  unfold chains_sorted
  infer_instance

instance {β : Type} [DecidableEq β] [Fintype β] (parents : β → List β) :
    Decidable (ancestor_closed parents) := by
  unfold ancestor_closed
  infer_instance

/-- The spec's §4.3 derivation into four disjoint groups: `W` on the
write set; `WA` on ancestors of writes not themselves written; `R` on
reads not covered by the first two groups; `RA` on ancestors of the
remaining reads not already covered. -/
def specGroupMode (parents : α → List α) (read write : List α) (n : α) :
    Option Mode :=
  if n ∈ write then some .Write
  else if ∃ w ∈ write, n ∈ parents w then some .WriteAncestor
  else if n ∈ read then some .Read
  else if ∃ r ∈ read, (r ∉ write ∧ ¬ ∃ w ∈ write, r ∈ parents w) ∧ n ∈ parents r then
    some .ReadAncestor
  else none

/-- The spec's grouping amended by one case: a node that is both read and
a strict ancestor of a write (and not itself written) takes the composite
`ReadAndWriteAncestor` instead of plain `WriteAncestor`. -/
def specGroupMode5 (parents : α → List α) (read write : List α) (n : α) :
    Option Mode :=
  if n ∈ write then some .Write
  else if (∃ w ∈ write, n ∈ parents w) ∧ n ∈ read then some .ReadAndWriteAncestor
  else if ∃ w ∈ write, n ∈ parents w then some .WriteAncestor
  else if n ∈ read then some .Read
  else if ∃ r ∈ read, (r ∉ write ∧ ¬ ∃ w ∈ write, r ∈ parents w) ∧ n ∈ parents r then
    some .ReadAncestor
  else none

end Derivation

section MergeLemmas

variable {α : Type} [LinearOrder α]

/-- Entries later in the merged stream never have a larger node:
descending order on the node component. -/
def EntryDesc (a b : α × Mode) : Prop := b.1 ≤ a.1

theorem popBest_eq_none {ls : List (List (α × Mode))}
    (h : popBest ls = none) : ls.flatten = [] := by
  induction ls with
  | nil => rfl
  | cons hd rest ih =>
    cases hd with
    | nil =>
      rw [popBest] at h
      simpa using ih h
    | cons e es =>
      rw [popBest] at h
      cases hpr : popBest rest with
      | none => simp [hpr] at h
      | some p => rw [hpr] at h; dsimp at h; split at h <;> simp at h

theorem popBest_totalLen {ls ls2 : List (List (α × Mode))} {e : α × Mode}
    (h : popBest ls = some (e, ls2)) : totalLen ls2 + 1 = totalLen ls := by
  induction ls generalizing e ls2 with
  | nil => simp [popBest] at h
  | cons hd rest ih =>
    cases hd with
    | nil =>
      rw [popBest] at h
      simpa [totalLen] using ih h
    | cons a es =>
      rw [popBest] at h
      cases hpr : popBest rest with
      | none =>
        rw [hpr] at h; dsimp at h
        simp only [Option.some.injEq, Prod.mk.injEq] at h
        obtain ⟨rfl, rfl⟩ := h
        simp only [totalLen, List.map_cons, List.sum_cons, List.length_cons]
        omega
      | some p =>
        rw [hpr] at h; dsimp at h
        split at h
        · simp only [Option.some.injEq, Prod.mk.injEq] at h
          obtain ⟨rfl, rfl⟩ := h
          have := ih (by rw [hpr] : popBest rest = some (p.1, p.2))
          simp only [totalLen, List.map_cons, List.sum_cons, List.length_cons] at this ⊢
          omega
        · simp only [Option.some.injEq, Prod.mk.injEq] at h
          obtain ⟨rfl, rfl⟩ := h
          simp only [totalLen, List.map_cons, List.sum_cons, List.length_cons]
          omega

theorem popBest_flatten_perm {ls ls2 : List (List (α × Mode))} {e : α × Mode}
    (h : popBest ls = some (e, ls2)) : ls.flatten.Perm (e :: ls2.flatten) := by
  induction ls generalizing e ls2 with
  | nil => simp [popBest] at h
  | cons hd rest ih =>
    cases hd with
    | nil =>
      rw [popBest] at h
      simpa using ih h
    | cons a es =>
      rw [popBest] at h
      cases hpr : popBest rest with
      | none =>
        rw [hpr] at h; dsimp at h
        simp only [Option.some.injEq, Prod.mk.injEq] at h
        obtain ⟨rfl, rfl⟩ := h
        simp
      | some p =>
        rw [hpr] at h; dsimp at h
        have hp := ih (by rw [hpr] : popBest rest = some (p.1, p.2))
        split at h
        · simp only [Option.some.injEq, Prod.mk.injEq] at h
          obtain ⟨rfl, rfl⟩ := h
          simp only [List.flatten_cons, List.cons_append]
          have h1 := (hp.append_left es).cons a
          have h2 : List.Perm (es ++ p.1 :: p.2.flatten)
              (p.1 :: (es ++ p.2.flatten)) := List.perm_middle
          have h2a := h2.cons a
          exact (h1.trans h2a).trans (List.Perm.swap p.1 a _)
        · simp only [Option.some.injEq, Prod.mk.injEq] at h
          obtain ⟨rfl, rfl⟩ := h
          simp

theorem popBest_max {ls ls2 : List (List (α × Mode))} {e : α × Mode}
    (hs : ∀ l ∈ ls, l.Pairwise EntryDesc)
    (h : popBest ls = some (e, ls2)) :
    (∀ x ∈ ls2.flatten, x.1 ≤ e.1) ∧ ∀ l ∈ ls2, l.Pairwise EntryDesc := by
  induction ls generalizing e ls2 with
  | nil => simp [popBest] at h
  | cons hd rest ih =>
    have hrest : ∀ l ∈ rest, l.Pairwise EntryDesc :=
      fun l hl => hs l (List.mem_cons_of_mem _ hl)
    cases hd with
    | nil =>
      rw [popBest] at h
      exact ih hrest h
    | cons a es =>
      have ha : (a :: es).Pairwise EntryDesc := hs _ (List.mem_cons_self ..)
      have haes : ∀ x ∈ es, x.1 ≤ a.1 :=
        fun x hx => (List.pairwise_cons.mp ha).1 x hx
      rw [popBest] at h
      cases hpr : popBest rest with
      | none =>
        rw [hpr] at h; dsimp at h
        simp only [Option.some.injEq, Prod.mk.injEq] at h
        obtain ⟨rfl, rfl⟩ := h
        have hre : rest.flatten = [] := popBest_eq_none hpr
        constructor
        · intro x hx
          simp only [List.flatten_cons, List.mem_append, hre, List.not_mem_nil,
            or_false] at hx
          exact haes x hx
        · intro l hl
          rcases List.mem_cons.mp hl with rfl | hl
          · exact ha.sublist (List.sublist_cons_self ..)
          · exact hrest l hl
      | some p =>
        rw [hpr] at h; dsimp at h
        have hip := ih hrest (by rw [hpr] : popBest rest = some (p.1, p.2))
        have hflat := popBest_flatten_perm (by rw [hpr] : popBest rest = some (p.1, p.2))
        split at h
        case isTrue hlt =>
          simp only [Option.some.injEq, Prod.mk.injEq] at h
          obtain ⟨rfl, rfl⟩ := h
          constructor
          · intro x hx
            simp only [List.flatten_cons, List.mem_append, List.mem_cons] at hx
            rcases hx with (rfl | hx) | hx
            · exact le_of_lt hlt
            · exact le_trans (haes x hx) (le_of_lt hlt)
            · exact hip.1 x hx
          · intro l hl
            rcases List.mem_cons.mp hl with rfl | hl
            · exact ha
            · exact hip.2 l hl
        case isFalse hge =>
          simp only [Option.some.injEq, Prod.mk.injEq] at h
          obtain ⟨rfl, rfl⟩ := h
          push_neg at hge
          constructor
          · intro x hx
            simp only [List.flatten_cons, List.mem_append] at hx
            rcases hx with hx | hx
            · exact haes x hx
            · rcases List.mem_cons.mp (hflat.mem_iff.mp hx) with rfl | hx2
              · exact hge
              · exact le_trans (hip.1 x hx2) hge
          · intro l hl
            rcases List.mem_cons.mp hl with rfl | hl
            · exact ha.sublist (List.sublist_cons_self ..)
            · exact hrest l hl

theorem mergeRevFuel_perm :
    ∀ (fuel : Nat) (ls : List (List (α × Mode))), totalLen ls ≤ fuel →
      (mergeRevFuel fuel ls).Perm ls.flatten := by
  intro fuel
  induction fuel with
  | zero =>
    intro ls hls
    have : ∀ l ∈ ls, l = [] := by
      intro l hl
      have h1 : l.length ≤ totalLen ls :=
        List.single_le_sum (fun _ _ => Nat.zero_le _) _
          (List.mem_map_of_mem List.length hl)
      exact List.length_eq_zero.mp (Nat.le_zero.mp (le_trans h1 hls))
    rw [mergeRevFuel, List.flatten_eq_nil_iff.mpr this]
  | succ fuel ih =>
    intro ls hls
    rw [mergeRevFuel]
    cases hp : popBest ls with
    | none => rw [popBest_eq_none hp]
    | some p =>
      have hlen := popBest_totalLen hp
      have hperm := popBest_flatten_perm hp
      exact ((ih p.2 (by omega)).cons p.1).trans hperm.symm

theorem mergeRevFuel_sorted :
    ∀ (fuel : Nat) (ls : List (List (α × Mode))), totalLen ls ≤ fuel →
      (∀ l ∈ ls, l.Pairwise EntryDesc) →
      (mergeRevFuel fuel ls).Pairwise EntryDesc := by
  intro fuel
  induction fuel with
  | zero => intro ls _ _; rw [mergeRevFuel]; exact List.Pairwise.nil
  | succ fuel ih =>
    intro ls hls hs
    rw [mergeRevFuel]
    cases hp : popBest ls with
    | none => exact List.Pairwise.nil
    | some p =>
      have hlen := popBest_totalLen hp
      have hmax := popBest_max hs hp
      refine List.pairwise_cons.mpr ⟨?_, ih p.2 (by omega) hmax.2⟩
      intro x hx
      exact hmax.1 x ((mergeRevFuel_perm fuel p.2 (by omega)).mem_iff.mp hx)

theorem merge_perm (ls : List (List (α × Mode))) : (merge ls).Perm ls.flatten :=
  mergeRevFuel_perm _ ls le_rfl

theorem merge_sorted (ls : List (List (α × Mode)))
    (hs : ∀ l ∈ ls, l.Pairwise EntryDesc) : (merge ls).Pairwise EntryDesc :=
  mergeRevFuel_sorted _ ls le_rfl hs

end MergeLemmas

section Dedup

variable {α : Type} [DecidableEq α]

/-- First-occurrence deduplication: the sequence of distinct values in
order of first appearance. For the sorted merge output this is the
sequence of distinct nodes, one per coalesced group. -/
def dedupFirst : List α → List α
  | [] => []
  | a :: l => a :: dedupFirst (l.filter (fun x => decide (x ≠ a)))
termination_by l => l.length
decreasing_by
  simp only [List.length_cons]
  exact Nat.lt_succ_of_le (List.length_filter_le _ _)

theorem mem_dedupFirst {l : List α} {x : α} : x ∈ dedupFirst l ↔ x ∈ l := by
  induction l using dedupFirst.induct with
  | case1 => simp [dedupFirst]
  | case2 a l ih =>
    rw [dedupFirst]
    simp only [List.mem_cons, ih, List.mem_filter, decide_eq_true_eq]
    constructor
    · rintro (rfl | ⟨h, _⟩)
      · exact Or.inl rfl
      · exact Or.inr h
    · rintro (rfl | h)
      · exact Or.inl rfl
      · by_cases hx : x = a
        · exact Or.inl hx
        · exact Or.inr ⟨h, hx⟩

theorem nodup_dedupFirst (l : List α) : (dedupFirst l).Nodup := by
  induction l using dedupFirst.induct with
  | case1 => simp [dedupFirst]
  | case2 a l ih =>
    rw [dedupFirst]
    refine List.nodup_cons.mpr ⟨?_, ih⟩
    intro ha
    have := (List.mem_filter.mp (mem_dedupFirst.mp ha)).2
    simp at this

end Dedup

section DedupSorted

variable {α : Type} [LinearOrder α]

theorem dedupFirst_sorted {l : List α}
    (h : l.Pairwise (fun a b => b ≤ a)) :
    (dedupFirst l).Pairwise (fun a b => b < a) := by
  induction l using dedupFirst.induct with
  | case1 => simp [dedupFirst]
  | case2 a l ih =>
    rw [dedupFirst]
    have hl := List.pairwise_cons.mp h
    refine List.pairwise_cons.mpr ⟨?_, ih (hl.2.sublist (List.filter_sublist _))⟩
    intro b hb
    have hbf := List.mem_filter.mp (mem_dedupFirst.mp hb)
    exact lt_of_le_of_ne (hl.1 b hbf.1) (by simpa using hbf.2)

end DedupSorted

section Canon

variable {α : Type} [LinearOrder α]

theorem final_mode_congr {l₁ l₂ : List Mode}
    (h : ∀ x, x ∈ l₁ ↔ x ∈ l₂) : final_mode l₁ = final_mode l₂ := by
  simp only [final_mode, h]

theorem mem_modesOf {n : α} {m : Mode} {l : List (α × Mode)} :
    m ∈ modesOf n l ↔ (n, m) ∈ l := by
  simp only [modesOf, List.mem_map, List.mem_filter, decide_eq_true_eq]
  constructor
  · rintro ⟨⟨k, m'⟩, ⟨hmem, rfl⟩, rfl⟩
    exact hmem
  · intro hmem
    exact ⟨(n, m), ⟨hmem, rfl⟩, rfl⟩

theorem modesOf_cons_same (n : α) (m : Mode) (rest : List (α × Mode)) :
    modesOf n ((n, m) :: rest) = m :: modesOf n rest := by
  simp [modesOf]

theorem modesOf_cons_ne {n k : α} (h : k ≠ n) (m : Mode)
    (rest : List (α × Mode)) :
    modesOf n ((k, m) :: rest) = modesOf n rest := by
  simp [modesOf, h]

theorem modesOf_perm {l₁ l₂ : List (α × Mode)} (h : l₁.Perm l₂) (n : α) :
    (modesOf n l₁).Perm (modesOf n l₂) :=
  (h.filter _).map _

/-- The canonical description of the coalescing loop on a
descending-sorted entry list: one acquisition per distinct node, in
stream order, carrying `final_mode` of all modes listed for that node. -/
theorem group_loop_canon :
    ∀ (entries : List (α × Mode)) (previous : α) (lock_modes : List Mode),
      entries.Pairwise EntryDesc → (∀ e ∈ entries, e.1 ≤ previous) →
      group_loop previous lock_modes entries =
        (previous, final_mode (lock_modes ++ modesOf previous entries)) ::
          (dedupFirst ((entries.map Prod.fst).filter
              (fun x => decide (x ≠ previous)))).map
            (fun n => (n, final_mode (modesOf n entries))) := by
  intro entries
  induction entries with
  | nil =>
    intro previous lock_modes _ _
    simp [group_loop, modesOf, dedupFirst]
  | cons e rest ih =>
    obtain ⟨node, mode⟩ := e
    intro previous lock_modes hsort hbound
    have hrest_sort : rest.Pairwise EntryDesc :=
      (List.pairwise_cons.mp hsort).2
    have hrest_le_node : ∀ x ∈ rest, x.1 ≤ node :=
      fun x hx => (List.pairwise_cons.mp hsort).1 x hx
    by_cases hn : node = previous
    · subst hn
      rw [group_loop, if_pos rfl,
        ih node (mode :: lock_modes) hrest_sort hrest_le_node,
        modesOf_cons_same]
      congr 1
      · exact congrArg (fun y => (node, y)) (final_mode_congr fun x => by
          simp only [List.mem_append, List.mem_cons]
          tauto)
      · rw [List.map_cons, List.filter_cons_of_neg (by simp)]
        exact List.map_congr_left fun k hk => by
          have hkne : k ≠ node := by
            have := (List.mem_filter.mp (mem_dedupFirst.mp hk)).2
            simpa using this
          rw [modesOf_cons_ne (Ne.symm hkne)]
    · have hlt : node < previous :=
        lt_of_le_of_ne (hbound (node, mode) (List.mem_cons_self ..)) hn
      have hrest_lt : ∀ x ∈ rest, x.1 < previous :=
        fun x hx => lt_of_le_of_lt (hrest_le_node x hx) hlt
      rw [group_loop, if_neg hn, ih node [mode] hrest_sort hrest_le_node]
      have hmod : modesOf previous ((node, mode) :: rest) = [] := by
        rw [modesOf_cons_ne hn]
        simp only [modesOf, List.map_eq_nil_iff, List.filter_eq_nil_iff,
          decide_eq_true_eq]
        intro e he
        exact ne_of_lt (hrest_lt e he)
      have hfilter : List.filter (fun x => decide (x ≠ previous))
          (((node, mode) :: rest).map Prod.fst) = node :: rest.map Prod.fst := by
        rw [List.map_cons, List.filter_cons_of_pos (by simpa using hn)]
        congr 1
        refine List.filter_eq_self.mpr fun x hx => ?_
        obtain ⟨e, he, rfl⟩ := List.mem_map.mp hx
        simpa using ne_of_lt (hrest_lt e he)
      rw [hmod, List.append_nil, hfilter, dedupFirst, List.map_cons]
      congr 1
      congr 1
      · simp [modesOf_cons_same]
      · exact List.map_congr_left fun k hk => by
          have hkne : k ≠ node := by
            have := (List.mem_filter.mp (mem_dedupFirst.mp hk)).2
            simpa using this
          rw [modesOf_cons_ne (Ne.symm hkne)]

/-- `acquire_seq` on a descending-sorted entry list: one acquisition per
distinct node, carrying the `final_mode` of that node's listed modes. -/
theorem acquire_seq_canon (entries : List (α × Mode))
    (hsort : entries.Pairwise EntryDesc) :
    acquire_seq entries =
      (dedupFirst (entries.map Prod.fst)).map
        (fun n => (n, final_mode (modesOf n entries))) := by
  cases entries with
  | nil => simp [acquire_seq, dedupFirst]
  | cons e rest =>
    obtain ⟨node, mode⟩ := e
    rw [acquire_seq, group_loop_canon rest node [mode]
      (List.pairwise_cons.mp hsort).2
      (fun x hx => (List.pairwise_cons.mp hsort).1 x hx),
      List.map_cons, dedupFirst, List.map_cons]
    congr 1
    · simp [modesOf_cons_same]
    · exact List.map_congr_left fun k hk => by
        have hkne : k ≠ node := by
          have := (List.mem_filter.mp (mem_dedupFirst.mp hk)).2
          simpa using this
        rw [modesOf_cons_ne (Ne.symm hkne)]

end Canon

section Bridge

variable {α : Type} [LinearOrder α]

theorem flatten_perm_of_perm {β : Type} {l₁ l₂ : List (List β)}
    (h : l₁.Perm l₂) : l₁.flatten.Perm l₂.flatten := by
  induction h with
  | nil => rfl
  | cons x _ ih => simpa using ih.append_left x
  | swap x y l =>
    simp only [List.flatten_cons]
    rw [← List.append_assoc, ← List.append_assoc]
    exact List.perm_append_comm.append_right l.flatten
  | trans _ _ ih1 ih2 => exact ih1.trans ih2

theorem all_locks_sorted {parents : α → List α} {read write : List α}
    (h : chains_sorted parents read write) :
    ∀ l ∈ all_locks parents read write, l.Pairwise EntryDesc := by
  intro l hl
  simp only [all_locks, List.mem_append, List.mem_map] at hl
  have hsingle : ∀ (x : α) (m : Mode), (with_locks [x] m).Pairwise EntryDesc := by
    intro x m
    simp [with_locks]
  have hchain : ∀ (x : α) (m : Mode), (parents x).Pairwise (fun a b => b ≤ a) →
      (with_locks (parents x) m).Pairwise EntryDesc := by
    intro x m hx
    exact List.pairwise_map.mpr (hx.imp fun hab => hab)
  rcases hl with ((⟨x, hx, rfl⟩ | ⟨x, hx, rfl⟩) | ⟨x, hx, rfl⟩) | ⟨x, hx, rfl⟩
  · exact hsingle x _
  · exact hchain x _ (h.1 x hx)
  · exact hsingle x _
  · exact hchain x _ (h.2 x hx)

theorem merged_perm_raw (parents : α → List α) (read write : List α) :
    (merge (all_locks parents read write)).Perm
      (raw_entries parents read write) :=
  merge_perm _

theorem merged_sorted {parents : α → List α} {read write : List α}
    (h : chains_sorted parents read write) :
    (merge (all_locks parents read write)).Pairwise EntryDesc :=
  merge_sorted _ (all_locks_sorted h)

/-- `final_mode` and the spec-worded `strongest_mode` coincide. -/
theorem final_mode_eq_strongest_mode (ms : List Mode) :
    final_mode ms = strongest_mode ms := rfl

/-- The canonical description of one request's acquisition sequence,
valid whenever the merge precondition (descending ancestor chains)
holds: one entry per distinct node of the merged stream, carrying the
`final_mode` of all raw modes listed for that node. -/
theorem tree_acquire_canon {parents : α → List α} {read write : List α}
    (h : chains_sorted parents read write) :
    tree_acquire parents read write =
      (dedupFirst ((merge (all_locks parents read write)).map Prod.fst)).map
        (fun n => (n, final_mode (raw_modes parents read write n))) := by
  rw [tree_acquire, acquire_seq_canon _ (merged_sorted h)]
  refine List.map_congr_left fun n _ => ?_
  refine congrArg (fun y => (n, y)) (final_mode_congr fun x => ?_)
  exact (modesOf_perm (merged_perm_raw parents read write) n).mem_iff

/-- Node `n` is listed by the request under some raw mode. -/
def touches (parents : α → List α) (read write : List α) (n : α) : Prop :=
  ∃ m, (n, m) ∈ raw_entries parents read write

theorem mem_raw_entries {parents : α → List α} {read write : List α}
    {n : α} {m : Mode} :
    (n, m) ∈ raw_entries parents read write ↔
      (m = .Write ∧ n ∈ write) ∨
      (m = .WriteAncestor ∧ ∃ w ∈ write, n ∈ parents w) ∨
      (m = .Read ∧ n ∈ read) ∨
      (m = .ReadAncestor ∧ ∃ r ∈ read, n ∈ parents r) := by
  simp only [raw_entries, all_locks, with_locks, List.flatten_append,
    List.mem_append, ← List.flatMap_def, List.mem_flatMap, List.mem_map,
    List.mem_singleton, Prod.mk.injEq]
  constructor
  · rintro (((⟨w, hw, x, rfl, rfl, rfl⟩ | ⟨w, hw, x, hx, rfl, rfl⟩) |
      ⟨r, hr, x, rfl, rfl, rfl⟩) | ⟨r, hr, x, hx, rfl, rfl⟩)
    · exact Or.inl ⟨rfl, hw⟩
    · exact Or.inr (Or.inl ⟨rfl, w, hw, hx⟩)
    · exact Or.inr (Or.inr (Or.inl ⟨rfl, hr⟩))
    · exact Or.inr (Or.inr (Or.inr ⟨rfl, r, hr, hx⟩))
  · rintro (⟨rfl, hw⟩ | ⟨rfl, w, hw, hx⟩ | ⟨rfl, hr⟩ | ⟨rfl, r, hr, hx⟩)
    · exact Or.inl (Or.inl (Or.inl ⟨n, hw, n, rfl, rfl, rfl⟩))
    · exact Or.inl (Or.inl (Or.inr ⟨w, hw, n, hx, rfl, rfl⟩))
    · exact Or.inl (Or.inr ⟨n, hr, n, rfl, rfl, rfl⟩)
    · exact Or.inr ⟨r, hr, n, hx, rfl, rfl⟩

theorem write_mem_raw_modes {parents : α → List α} {read write : List α}
    {n : α} : Mode.Write ∈ raw_modes parents read write n ↔ n ∈ write := by
  rw [raw_modes, mem_modesOf, mem_raw_entries]
  simp

theorem wa_mem_raw_modes {parents : α → List α} {read write : List α}
    {n : α} : Mode.WriteAncestor ∈ raw_modes parents read write n ↔
      ∃ w ∈ write, n ∈ parents w := by
  rw [raw_modes, mem_modesOf, mem_raw_entries]
  simp

theorem read_mem_raw_modes {parents : α → List α} {read write : List α}
    {n : α} : Mode.Read ∈ raw_modes parents read write n ↔ n ∈ read := by
  rw [raw_modes, mem_modesOf, mem_raw_entries]
  simp

theorem ra_mem_raw_modes {parents : α → List α} {read write : List α}
    {n : α} : Mode.ReadAncestor ∈ raw_modes parents read write n ↔
      ∃ r ∈ read, n ∈ parents r := by
  rw [raw_modes, mem_modesOf, mem_raw_entries]
  simp

theorem touches_iff {parents : α → List α} {read write : List α} {n : α} :
    touches parents read write n ↔
      n ∈ write ∨ (∃ w ∈ write, n ∈ parents w) ∨ n ∈ read ∨
        ∃ r ∈ read, n ∈ parents r := by
  constructor
  · rintro ⟨m, hm⟩
    rcases mem_raw_entries.mp hm with ⟨_, h⟩ | ⟨_, h⟩ | ⟨_, h⟩ | ⟨_, h⟩
    · exact Or.inl h
    · exact Or.inr (Or.inl h)
    · exact Or.inr (Or.inr (Or.inl h))
    · exact Or.inr (Or.inr (Or.inr h))
  · rintro (h | h | h | h)
    · exact ⟨.Write, mem_raw_entries.mpr (Or.inl ⟨rfl, h⟩)⟩
    · exact ⟨.WriteAncestor, mem_raw_entries.mpr (Or.inr (Or.inl ⟨rfl, h⟩))⟩
    · exact ⟨.Read, mem_raw_entries.mpr (Or.inr (Or.inr (Or.inl ⟨rfl, h⟩)))⟩
    · exact ⟨.ReadAncestor,
        mem_raw_entries.mpr (Or.inr (Or.inr (Or.inr ⟨rfl, h⟩)))⟩

/-- On a touched node of a tree-shaped node model, the amended five-group
spec derivation yields exactly the coalesced mode of the raw listings. -/
theorem spec5_eq_final_mode {parents : α → List α} {read write : List α}
    {n : α} (hclosed : ancestor_closed parents)
    (htouch : touches parents read write n) :
    specGroupMode5 parents read write n =
      some (final_mode (raw_modes parents read write n)) := by
  by_cases c1 : n ∈ write
  · have hW : Mode.Write ∈ raw_modes parents read write n :=
      write_mem_raw_modes.mpr c1
    rw [specGroupMode5, if_pos c1, final_mode, if_pos hW]
  · have hW : Mode.Write ∉ raw_modes parents read write n := by
      rw [write_mem_raw_modes]; exact c1
    by_cases c2 : ∃ w ∈ write, n ∈ parents w
    · have hWA : Mode.WriteAncestor ∈ raw_modes parents read write n :=
        wa_mem_raw_modes.mpr c2
      by_cases c3 : n ∈ read
      · have hR : Mode.Read ∈ raw_modes parents read write n :=
          read_mem_raw_modes.mpr c3
        rw [specGroupMode5, if_neg c1, if_pos ⟨c2, c3⟩, final_mode,
          if_neg hW, if_pos ⟨hWA, hR⟩]
      · have hR : Mode.Read ∉ raw_modes parents read write n := by
          rw [read_mem_raw_modes]; exact c3
        rw [specGroupMode5, if_neg c1, if_neg (fun hc => c3 hc.2), if_pos c2,
          final_mode, if_neg hW, if_neg (fun hc => hR hc.2), if_pos hWA]
    · have hWA : Mode.WriteAncestor ∉ raw_modes parents read write n := by
        rw [wa_mem_raw_modes]; exact c2
      by_cases c3 : n ∈ read
      · have hR : Mode.Read ∈ raw_modes parents read write n :=
          read_mem_raw_modes.mpr c3
        rw [specGroupMode5, if_neg c1, if_neg (fun hc => c2 hc.1),
          if_neg c2, if_pos c3, final_mode, if_neg hW,
          if_neg (fun hc => hWA hc.1), if_neg hWA, if_pos hR]
      · have hR : Mode.Read ∉ raw_modes parents read write n := by
          rw [read_mem_raw_modes]; exact c3
        have c4 : ∃ r ∈ read, n ∈ parents r := by
          rcases touches_iff.mp htouch with h | h | h | h
          · exact absurd h c1
          · exact absurd h c2
          · exact absurd h c3
          · exact h
        obtain ⟨r, hr, hnr⟩ := c4
        have hr' : (r ∉ write ∧ ¬ ∃ w ∈ write, r ∈ parents w) ∧
            n ∈ parents r := by
          refine ⟨⟨fun hrw => c2 ⟨r, hrw, hnr⟩, fun hrwa => ?_⟩, hnr⟩
          obtain ⟨w, hw, hrw⟩ := hrwa
          exact c2 ⟨w, hw, hclosed w r n hrw hnr⟩
        rw [specGroupMode5, if_neg c1, if_neg (fun hc => c2 hc.1),
          if_neg c2, if_neg c3, if_pos ⟨r, hr, hr'⟩, final_mode,
          if_neg hW, if_neg (fun hc => hWA hc.1), if_neg hWA, if_neg hR]

theorem spec5_eq_none {parents : α → List α} {read write : List α} {n : α}
    (htouch : ¬ touches parents read write n) :
    specGroupMode5 parents read write n = none := by
  rw [touches_iff] at htouch
  push_neg at htouch
  obtain ⟨h1, h2, h3, h4⟩ := htouch
  have h2' : ¬ ∃ w ∈ write, n ∈ parents w := by
    rintro ⟨w, hw, hnw⟩; exact h2 w hw hnw
  have h5 : ¬ ∃ r ∈ read, (r ∉ write ∧ ¬ ∃ w ∈ write, r ∈ parents w) ∧
      n ∈ parents r := by
    rintro ⟨r, hr, _, hnr⟩; exact h4 r hr hnr
  rw [specGroupMode5, if_neg h1, if_neg (fun hc => h2' hc.1), if_neg h2',
    if_neg h3, if_neg h5]

theorem touches_iff_mem_nodes {parents : α → List α} {read write : List α}
    {n : α} :
    touches parents read write n ↔
      n ∈ dedupFirst ((merge (all_locks parents read write)).map Prod.fst) := by
  rw [mem_dedupFirst,
    ((merged_perm_raw parents read write).map Prod.fst).mem_iff]
  constructor
  · rintro ⟨m, hm⟩
    exact List.mem_map.mpr ⟨(n, m), hm, rfl⟩
  · intro hn
    obtain ⟨⟨k, m⟩, hmem, hk⟩ := List.mem_map.mp hn
    cases hk
    exact ⟨m, hmem⟩

end Bridge

section MainClaims

variable {α : Type} [LinearOrder α]

/-- C2 (amended: requires the merge's precondition, i.e. ancestor chains
listed in descending node order as with path-style nodes): whenever a node
is acquired, its composite mode is the strongest applicable one under the
lattice `W > (R ∧ WA) > WA > R > RA` over all the raw per-node listings
that mention it, with `(R ∧ WA)` realized as `ReadAndWriteAncestor`. -/
theorem C2_strongest_composite (parents : α → List α) (read write : List α)
    (hs : chains_sorted parents read write) (n : α) (m : Mode)
    (hm : (n, m) ∈ tree_acquire parents read write) :
    m = strongest_mode (raw_modes parents read write n) := by
  rw [tree_acquire_canon hs] at hm
  obtain ⟨k, hk, he⟩ := List.mem_map.mp hm
  simp only [Prod.mk.injEq] at he
  obtain ⟨rfl, rfl⟩ := he
  exact (final_mode_eq_strongest_mode _).symm ▸ rfl

/-- C3 (amended: the implementation's derivation coincides with the
spec's §4.3 grouping once group 2 is split so that a node that is both
read and an ancestor of a write — and not itself written — receives the
composite `ReadAndWriteAncestor` rather than plain `WriteAncestor`): for
path-style nodes (descending ancestor chains, ancestor-of-ancestor
closure) the implementation acquires exactly the nodes of the amended
groups, each with its group mode. -/
theorem C3_derivation_refines_spec_groups (parents : α → List α)
    (read write : List α) (hs : chains_sorted parents read write)
    (hc : ancestor_closed parents) (n : α) (m : Mode) :
    (n, m) ∈ tree_acquire parents read write ↔
      specGroupMode5 parents read write n = some m := by
  constructor
  · intro hm
    rw [tree_acquire_canon hs] at hm
    obtain ⟨k, hk, he⟩ := List.mem_map.mp hm
    simp only [Prod.mk.injEq] at he
    obtain ⟨rfl, rfl⟩ := he
    exact spec5_eq_final_mode hc (touches_iff_mem_nodes.mpr hk)
  · intro hm
    by_cases ht : touches parents read write n
    · have h5 := spec5_eq_final_mode hc ht
      obtain rfl : m = final_mode (raw_modes parents read write n) :=
        Option.some.inj (hm.symm.trans h5)
      rw [tree_acquire_canon hs]
      exact List.mem_map.mpr ⟨n, touches_iff_mem_nodes.mp ht, rfl⟩
    · rw [spec5_eq_none ht] at hm
      cases hm

/-- C4 (amended: requires the merge's precondition, i.e. ancestor chains
listed in descending node order as with path-style nodes): the acquisition
sequence is sorted strictly descending under the node total order — the
same direction for every request — and is a function only of the derived
per-node claims: permuting the client's read or write collections leaves
it unchanged. -/
theorem C4_sorted_and_input_order_independent (parents : α → List α)
    (read write read' write' : List α)
    (hs : chains_sorted parents read write)
    (hr : read.Perm read') (hw : write.Perm write') :
    (tree_acquire parents read write).Pairwise (fun a b => b.1 < a.1) ∧
    tree_acquire parents read write = tree_acquire parents read' write' := by
  constructor
  · rw [tree_acquire_canon hs]
    have h1 : ((merge (all_locks parents read write)).map Prod.fst).Pairwise
        (fun a b : α => b ≤ a) :=
      (merged_sorted hs).map Prod.fst (fun a b hab => hab)
    exact List.pairwise_map.mpr ((dedupFirst_sorted h1).imp fun hab => hab)
  · have hs' : chains_sorted parents read' write' :=
      ⟨fun x hx => hs.1 x (hw.mem_iff.mpr hx),
       fun x hx => hs.2 x (hr.mem_iff.mpr hx)⟩
    have hraw : (raw_entries parents read write).Perm
        (raw_entries parents read' write') := by
      unfold raw_entries all_locks
      exact flatten_perm_of_perm
        (((((hw.map _).append (hw.map _)).append (hr.map _)).append (hr.map _)))
    have hsl : (merge (all_locks parents read write)).Perm
        (merge (all_locks parents read' write')) :=
      ((merged_perm_raw parents read write).trans hraw).trans
        (merged_perm_raw parents read' write').symm
    haveI : IsAntisymm α (fun a b => b ≤ a) :=
      ⟨fun a b h1 h2 => le_antisymm h2 h1⟩
    have hsorted1 : ((merge (all_locks parents read write)).map Prod.fst).Pairwise
        (fun a b : α => b ≤ a) :=
      (merged_sorted hs).map Prod.fst (fun a b hab => hab)
    have hsorted2 : ((merge (all_locks parents read' write')).map Prod.fst).Pairwise
        (fun a b : α => b ≤ a) :=
      (merged_sorted hs').map Prod.fst (fun a b hab => hab)
    have hfst : (merge (all_locks parents read write)).map Prod.fst =
        (merge (all_locks parents read' write')).map Prod.fst :=
      List.eq_of_perm_of_sorted (hsl.map Prod.fst) hsorted1 hsorted2
    rw [tree_acquire_canon hs, tree_acquire_canon hs', hfst]
    refine List.map_congr_left fun n _ => ?_
    refine congrArg (fun y => (n, y)) (final_mode_congr fun x => ?_)
    exact (modesOf_perm hraw n).mem_iff

/-- C5 (amended: requires ancestor chains listed in descending node order,
as with path-style nodes; for a total order unrelated to the ancestor
relation the merge precondition can fail and a node can be claimed twice):
a request issues at most one per-node lock acquisition per node, for any
read/write input including duplicates and lineage overlaps. -/
theorem C5_each_node_claimed_once (parents : α → List α)
    (read write : List α) (hs : chains_sorted parents read write) :
    ((tree_acquire parents read write).map Prod.fst).Nodup := by
  rw [tree_acquire_canon hs, List.map_map]
  have hid : Prod.fst ∘
      (fun n : α => (n, final_mode (raw_modes parents read write n))) = id := rfl
  rw [hid, List.map_id]
  exact nodup_dedupFirst _

end MainClaims

section Runtime

variable {α : Type} [DecidableEq α]

/-- Modelled from the spec: the per-node state effect of a successful
`FifoLock` mode acquisition (the `fifolock` dependency's `NodeLock` of
spec §4.1, whose code is not in this repository): increment the held
count of the mode at that node. -/
def lock_acquire (st : α → Mode → Nat) (n : α) (m : Mode) : α → Mode → Nat :=
  fun x k => if x = n ∧ k = m then st x k + 1 else st x k

/-- Modelled from the spec: the per-node state effect of releasing a held
mode (spec §4.1 `release(handle)`): decrement the held count of the mode
at that node. -/
def lock_release (st : α → Mode → Nat) (n : α) (m : Mode) : α → Mode → Nat :=
  fun x k => if x = n ∧ k = m then st x k - 1 else st x k

/-- `__aexit__`: `while self._acquired: await self._acquired.pop()[1].__aexit__(...)`.
The acquired deque is used purely as a stack (append right, pop right);
it is represented most-recent-first, so the loop releases in list order,
which is reverse order of acquisition. Returns the final state and the
log of released `(node, mode)` handles in release order. -/
def release_loop : (α → Mode → Nat) → List (α × Mode) →
    (α → Mode → Nat) × List (α × Mode)
  | st, [] => (st, [])
  | st, (n, m) :: rest =>
    let out := release_loop (lock_release st n m) rest
    (out.1, (n, m) :: out.2)

/-- One `__aexit__` call on a context-manager state
`(lock states, acquired stack)`: empties the stack, releasing everything
on it, and reports the released handles in order. -/
def aexit (c : (α → Mode → Nat) × List (α × Mode)) :
    ((α → Mode → Nat) × List (α × Mode)) × List (α × Mode) :=
  (((release_loop c.1 c.2).1, []), (release_loop c.1 c.2).2)

/-- The `__aenter__` acquisition loop over the coalesced `(node, mode)`
sequence. `failAt = some i` models the awaited `lock_mode.__aenter__()`
of step `i` raising (cancellation or any `BaseException`) — by spec §5, a
cancelled `FifoLock` acquire removes its waiter and leaves that lock's
state unchanged, so the failing step itself acquires nothing; the
`except BaseException` handler then runs `self.__aexit__(None, None, None)`
and re-raises. Returns the final context state, the released handles (in
release order), and `true` iff no exception escaped. -/
def aenter_loop (failAt : Option Nat) :
    Nat → (α → Mode → Nat) × List (α × Mode) → List (α × Mode) →
      ((α → Mode → Nat) × List (α × Mode)) × List (α × Mode) × Bool
  | _, c, [] => (c, [], true)
  | i, c, (n, m) :: rest =>
    if failAt = some i then ((aexit c).1, (aexit c).2, false)
    else aenter_loop failAt (i + 1) (lock_acquire c.1 n m, (n, m) :: c.2) rest

/-- Folding the acquisition effects of a `(node, mode)` list in order. -/
def acquireAll (st : α → Mode → Nat) (l : List (α × Mode)) :
    α → Mode → Nat :=
  l.foldl (fun s p => lock_acquire s p.1 p.2) st

theorem release_loop_log (st : α → Mode → Nat) (l : List (α × Mode)) :
    (release_loop st l).2 = l := by
  induction l generalizing st with
  | nil => rfl
  | cons p rest ih =>
    obtain ⟨n, m⟩ := p
    simp [release_loop, ih]

theorem release_loop_append (st : α → Mode → Nat)
    (l₁ l₂ : List (α × Mode)) :
    (release_loop st (l₁ ++ l₂)).1 =
      (release_loop (release_loop st l₁).1 l₂).1 := by
  induction l₁ generalizing st with
  | nil => rfl
  | cons p rest ih =>
    obtain ⟨n, m⟩ := p
    simp [release_loop, ih]

theorem lock_release_acquire (st : α → Mode → Nat) (n : α) (m : Mode) :
    lock_release (lock_acquire st n m) n m = st := by
  funext x k
  by_cases h : x = n ∧ k = m
  · simp [lock_release, lock_acquire, h]
  · simp [lock_release, lock_acquire, h]

/-- Releasing, in reverse order, everything that a prefix acquired
restores the state that preceded the prefix. -/
theorem release_acquire_cancel :
    ∀ (l : List (α × Mode)) (st : α → Mode → Nat) (acc : List (α × Mode)),
      (release_loop (acquireAll st l) (l.reverse ++ acc)).1 =
        (release_loop st acc).1 := by
  intro l
  induction l with
  | nil => intro st acc; rfl
  | cons p rest ih =>
    obtain ⟨n, m⟩ := p
    intro st acc
    have h1 : ((n, m) :: rest).reverse ++ acc =
        rest.reverse ++ ((n, m) :: acc) := by
      simp
    rw [h1]
    have h2 : acquireAll st ((n, m) :: rest) =
        acquireAll (lock_acquire st n m) rest := rfl
    rw [h2, ih (lock_acquire st n m) ((n, m) :: acc)]
    show (release_loop (release_loop (lock_acquire st n m) [(n, m)]).1 acc).1 =
      (release_loop st acc).1
    simp [release_loop, lock_release_acquire]

/-- The acquisition loop, failing at running index `j + i` after having
acquired `i` further steps: everything acquired since the loop entered is
released on top of what was already on the stack, and the exception
escapes. -/
theorem aenter_loop_fail :
    ∀ (locks : List (α × Mode)) (i j : Nat)
      (c : (α → Mode → Nat) × List (α × Mode)), i < locks.length →
      aenter_loop (some (j + i)) j c locks =
        (((release_loop (acquireAll c.1 (locks.take i))
            ((locks.take i).reverse ++ c.2)).1, []),
          (release_loop (acquireAll c.1 (locks.take i))
            ((locks.take i).reverse ++ c.2)).2, false) := by
  intro locks
  induction locks with
  | nil => intro i j c h; simp at h
  | cons p rest ih =>
    obtain ⟨n, m⟩ := p
    intro i j c h
    cases i with
    | zero =>
      rw [aenter_loop, if_pos (by simp)]
      simp [aexit, acquireAll]
    | succ i =>
      rw [aenter_loop, if_neg (by simp)]
      have := ih i (j + 1) (lock_acquire c.1 n m, (n, m) :: c.2)
        (by simpa using Nat.lt_of_succ_lt_succ h)
      rw [show j + 1 + i = j + (i + 1) by omega] at this
      rw [this]
      have htake : ((n, m) :: rest).take (i + 1) = (n, m) :: rest.take i := rfl
      rw [htake]
      have hrev : ((n, m) :: rest.take i).reverse ++ c.2 =
          (rest.take i).reverse ++ ((n, m) :: c.2) := by simp
      rw [hrev]
      rfl

/-- C6: if awaiting any per-node acquisition raises partway through a
request's acquire (step `i` of the coalesced sequence), every handle the
request had already acquired is released, in reverse order of
acquisition, the exception propagates, and every per-node lock is left in
the state it was in before the acquire attempt — no partial holds
persist. -/
theorem C6_failed_acquire_unwinds (st : α → Mode → Nat)
    (locks : List (α × Mode)) (i : Nat) (h : i < locks.length) :
    aenter_loop (some i) 0 (st, []) locks =
      ((st, []), (locks.take i).reverse, false) := by
  have hmain := aenter_loop_fail locks i 0 (st, []) h
  rw [Nat.zero_add] at hmain
  rw [hmain]
  have hst : (release_loop (acquireAll st (locks.take i))
      ((locks.take i).reverse ++ ([] : List (α × Mode)))).1 = st := by
    rw [release_acquire_cancel]
    rfl
  have hlog : (release_loop (acquireAll st (locks.take i))
      ((locks.take i).reverse ++ ([] : List (α × Mode)))).2 =
      (locks.take i).reverse := by
    rw [release_loop_log, List.append_nil]
  rw [hst, hlog]

/-- C7: release is idempotent — a second scope exit on a request whose
acquired stack is already empty changes nothing — and a release releases
exactly the handles on the acquired stack and no others. -/
theorem C7_release_idempotent (st : α → Mode → Nat)
    (acq : List (α × Mode)) :
    aexit ((aexit (st, acq)).1) = ((aexit (st, acq)).1, []) ∧
    (aexit (st, acq)).2 = acq :=
  ⟨rfl, release_loop_log st acq⟩

end Runtime

section EmptyRequest

variable {α : Type} [LinearOrder α]

/-- C9: a request whose read and write collections are both empty derives
an empty acquisition sequence, so entering the scope acquires no locks
and touches no per-node state, and the subsequent scope exit is a no-op. -/
theorem C9_empty_request_noop (parents : α → List α) (st : α → Mode → Nat) :
    tree_acquire parents ([] : List α) ([] : List α) = [] ∧
    aenter_loop none 0 (st, ([] : List (α × Mode)))
      (tree_acquire parents [] []) = ((st, []), [], true) ∧
    aexit (st, ([] : List (α × Mode))) = ((st, []), []) :=
  ⟨rfl, rfl, rfl⟩

end EmptyRequest

section Concrete

/-- A two-node tree over `Fin 2`: node 1 has immediate parent 0 (the
root), matching paths `0 = /a`, `1 = /a/b`. -/
def parentsTwo : Fin 2 → List (Fin 2) := fun n => if n = 1 then [0] else []

/-- A four-node tree over `Fin 4` whose total order runs against the
ancestor relation: node 2 is the root, its children are 1 and 3, and 0 is
a child of 1, so the chain of 0 is `[1, 2]` — ascending, not descending,
under the `Fin 4` order, as the node contract of the spec permits. -/
def parentsSkew : Fin 4 → List (Fin 4) := fun n =>
  if n = 0 then [1, 2] else if n = 1 then [2] else if n = 3 then [2] else []

/-- A path-shaped chain over `Fin 4`: `1 = /a`, `2 = /a/b`, `3 = /a/b/c`
(node 0 unused). -/
def parentsChain : Fin 4 → List (Fin 4) := fun n =>
  if n = 3 then [2, 1] else if n = 2 then [1] else []

theorem C2_strongest_composite_witness :
    chains_sorted parentsTwo [0] [1] ∧
    ((0 : Fin 2), Mode.ReadAndWriteAncestor) ∈ tree_acquire parentsTwo [0] [1] ∧
    Mode.ReadAndWriteAncestor = strongest_mode (raw_modes parentsTwo [0] [1] 0) :=
  ⟨by decide, by decide,
    C2_strongest_composite parentsTwo [0] [1] (by decide) 0
      .ReadAndWriteAncestor (by decide)⟩

/-- The claim C2 as stated fails without the path-style precondition: with
the skewed-order tree, node 2 of the request `read=[0], write=[3]` is
acquired (a second time) with `ReadAncestor`, although the strongest raw
mode applying to it is `WriteAncestor`. -/
theorem C2_counterexample :
    ((2 : Fin 4), Mode.ReadAncestor) ∈ tree_acquire parentsSkew [0] [3] ∧
    strongest_mode (raw_modes parentsSkew [0] [3] 2) = Mode.WriteAncestor ∧
    Mode.ReadAncestor ≠ Mode.WriteAncestor := by decide

/-- The claim C3 as stated fails: on `read=[0], write=[1]` with `0` the
parent of `1`, the spec's literal four groups put node 0 in group 2
(`WriteAncestor`), while the implementation acquires node 0 with the
composite `ReadAndWriteAncestor`. -/
theorem C3_counterexample :
    specGroupMode parentsTwo [0] [1] 0 = some Mode.WriteAncestor ∧
    ((0 : Fin 2), Mode.ReadAndWriteAncestor) ∈ tree_acquire parentsTwo [0] [1] ∧
    ((0 : Fin 2), Mode.WriteAncestor) ∉ tree_acquire parentsTwo [0] [1] := by
  decide

theorem C3_derivation_refines_spec_groups_witness :
    chains_sorted parentsChain [3] [2] ∧ ancestor_closed parentsChain ∧
    (((1 : Fin 4), Mode.WriteAncestor) ∈ tree_acquire parentsChain [3] [2] ↔
      specGroupMode5 parentsChain [3] [2] 1 = some Mode.WriteAncestor) :=
  ⟨by decide, by decide,
    C3_derivation_refines_spec_groups parentsChain [3] [2] (by decide)
      (by decide) 1 .WriteAncestor⟩

/-- The claim C4 as stated fails without the path-style precondition: with
the skewed-order tree, the acquisition sequence of `read=[0], write=[3]`
is sorted in neither direction of the node total order. -/
theorem C4_counterexample :
    ¬ (tree_acquire parentsSkew [0] [3]).Pairwise (fun a b => b.1 ≤ a.1) ∧
    ¬ (tree_acquire parentsSkew [0] [3]).Pairwise (fun a b => a.1 ≤ b.1) := by
  decide

theorem C4_sorted_and_input_order_independent_witness :
    chains_sorted parentsChain [] [2, 3] ∧
    ([] : List (Fin 4)).Perm [] ∧ ([2, 3] : List (Fin 4)).Perm [3, 2] ∧
    ((tree_acquire parentsChain [] [2, 3]).Pairwise (fun a b => b.1 < a.1) ∧
      tree_acquire parentsChain [] [2, 3] =
        tree_acquire parentsChain [] [3, 2]) :=
  ⟨by decide, by decide, by decide,
    C4_sorted_and_input_order_independent parentsChain [] [2, 3] [] [3, 2]
      (by decide) (by decide) (by decide)⟩

/-- The claim C5 as stated fails: with a total order unrelated to the
ancestor relation (skewed tree, ancestor chains not descending), the
request `read=[0], write=[3]` issues two separate lock acquisitions for
node 2. -/
theorem C5_counterexample :
    ((tree_acquire parentsSkew [0] [3]).map Prod.fst).count 2 = 2 := by decide

theorem C5_each_node_claimed_once_witness :
    chains_sorted parentsChain [3, 3, 1] [2] ∧
    ((tree_acquire parentsChain [3, 3, 1] [2]).map Prod.fst).Nodup :=
  ⟨by decide, C5_each_node_claimed_once parentsChain [3, 3, 1] [2] (by decide)⟩

/-- An all-idle lock state over two nodes. -/
def stZero : Fin 2 → Mode → Nat := fun _ _ => 0

/-- A two-step coalesced acquisition sequence. -/
def locksTwo : List (Fin 2 × Mode) := [(1, .Write), (0, .WriteAncestor)]

theorem C6_failed_acquire_unwinds_witness :
    1 < locksTwo.length ∧
    aenter_loop (some 1) 0 (stZero, []) locksTwo =
      ((stZero, []), (locksTwo.take 1).reverse, false) :=
  ⟨by decide, C6_failed_acquire_unwinds stZero locksTwo 1 (by decide)⟩

end Concrete

end TreeLockModel
